import Mathlib

/-!
# Verification of the hof script-execution engine (`src/script/script.go`)

A shallow embedding of the script engine of `script.go`: the line parser,
the condition-guard / negation processing of the run loop, the environment
model (`Setenv` / `Getenv` / the setup-time replay), the HTTP response
classification, the HTTP request-building mini-language over a registry of
named clients, the golden-file update pass, and the background-process
bookkeeping.  Go strings are modelled as Lean `String`s, Go maps as
association lists, Go pointers (`*gorequest.SuperAgent`) as addresses into
an explicit heap, and fallible / fatal paths as explicit result
constructors.  Helpers that the engine calls but whose source is not part
of the repository snapshot (`envvarname`, `txtar.NeedsQuote` / `txtar.Quote`,
`time.ParseDuration`, the host condition hook, the file system) are taken
as parameters, and the `wait` builtin (`cmdWait`) is modelled from the
specification, as marked on its definition.
-/

namespace HofScript

/-! ## Go string helpers

Models of the `strings` standard-library functions the engine uses, written
over `String.data` character lists (Lean's built-in `String.startsWith`,
`String.trim`, … are `Substring`-based and do not reduce in the kernel).
`goTrimSpace` covers the ASCII white-space class of Go's
`unicode.IsSpace`. -/

/-- `strings.HasPrefix`. -/
def goHasPrefix (s pre : String) : Bool :=
  pre.data.isPrefixOf s.data

/-- `strings.HasSuffix`. -/
def goHasSuffix (s suf : String) : Bool :=
  suf.data.isSuffixOf s.data

def goSpace (c : Char) : Bool :=
  c = ' ' || c = '\t' || c = '\n' || c = '\x0b' || c = '\x0c' || c = '\r'

/-- `strings.TrimSpace` (ASCII white space). -/
def goTrimSpace (s : String) : String :=
  ⟨((s.data.dropWhile (goSpace ·)).reverse.dropWhile (goSpace ·)).reverse⟩

/-- Go slicing `s[n:]` (script lines are ASCII, so bytes = runes here). -/
def goDrop (s : String) (n : Nat) : String :=
  ⟨s.data.drop n⟩

/-- Go slicing `s[:len(s)-n]`. -/
def goDropRight (s : String) (n : Nat) : String :=
  ⟨s.data.take (s.data.length - n)⟩

/-! ## Script line parser (`(*Script).parse`, script.go:880-935)

The Go parser walks the line with an index `i`, a chunk start `start`
(`-1` when no chunk is open), the argument text `arg` accumulated so far,
and a `quoted` flag.  Here the not-yet-flushed chunk `line[start:i]` is
accumulated incrementally: `start : Option String` is `none` when the Go
`start` is `-1`, and otherwise holds the text of `line[start:i]`.
Environment-variable expansion (`ts.expand`) is a parameter. -/

inductive ParseResult where
  | fatal (msg : String)
  | ok (args : List String)
  deriving DecidableEq, Repr

/-- One step of `parse`: `parseAux expand cs quoted start arg args` processes the
remaining characters `cs` of the line.  Faithful to script.go:889-933:
separators and `#` only count outside quotes; a quote toggles quoted mode,
flushing the pending chunk *without* expansion when closing; a doubled
quote inside a quoted span flushes the chunk and starts the next chunk *at*
the second quote character (so the literal quote lands in the argument);
any other character extends the pending chunk; reaching the end of the line
while quoted is the fatal "unterminated quoted argument" error. -/
def parseAux (expand : String → String) :
    List Char → Bool → Option String → String → List String → ParseResult
  | [], true, _, _, _ => .fatal "unterminated quoted argument"
  | [], false, start, arg, args =>
    match start with
    | some chunk => .ok (args ++ [arg ++ expand chunk])
    | none => .ok args
  | '\'' :: '\'' :: rest2, true, start, arg, args =>
    parseAux expand rest2 true (some "'") (arg ++ start.getD "") args
  | '\'' :: rest, true, start, arg, args =>
    parseAux expand rest false (some "") (arg ++ start.getD "") args
  | '\'' :: rest, false, start, arg, args =>
    let arg' :=
      match start with
      | some chunk => arg ++ expand chunk
      | none => arg
    parseAux expand rest true (some "") arg' args
  | c :: rest, quoted, start, arg, args =>
    if !quoted && (c = ' ' || c = '\t' || c = '\r' || c = '#') then
      let args' :=
        match start with
        | some chunk => args ++ [arg ++ expand chunk]
        | none => args
      if c = '#' then .ok args'
      else parseAux expand rest false none "" args'
    else
      parseAux expand rest quoted (some (start.getD "" ++ c.toString)) arg args

/-- `(*Script).parse` (script.go:880-935): split one script line into
arguments, with single-quote spans disabling splitting and expansion. -/
def parse (expand : String → String) (line : String) : ParseResult :=
  parseAux expand line.data false none "" []

/-! ## Run loop: condition guards, negation, dispatch (script.go:440-541) -/

/-- Result of evaluating the chain of `[cond]` guards at the head of a parsed
line (script.go:484-506). -/
inductive GuardRes where
  | fatal (msg : String)
  | skipLine
  | proceed (args : List String)
  deriving DecidableEq, Repr

/-- Is a token a condition guard?  script.go:485:
`strings.HasPrefix(args[0], "[") && strings.HasSuffix(args[0], "]")`. -/
def guardTok (x : String) : Bool :=
  goHasPrefix x "[" && goHasSuffix x "]"

/-- The wanted polarity and the bare condition of a guard token
(script.go:486-497): strip the brackets, trim, and a leading `!` flips the
wanted value and is trimmed off. -/
def guardSpec (x : String) : Bool × String :=
  let cond0 := goTrimSpace (goDropRight (goDrop x 1) 1)
  if goHasPrefix cond0 "!" then (false, goTrimSpace (goDrop cond0 1)) else (true, cond0)

/-- script.go:485-506: while the first argument is a guard token, strip it,
require a command to remain, evaluate its condition (`condition c = none`
models `ts.condition` returning an error, i.e. an unknown condition), and on
a polarity mismatch skip the rest of the line. -/
def processGuards (condition : String → Option Bool) : List String → GuardRes
  | [] => .proceed []
  | a :: rest =>
    if guardTok a then
      if rest.isEmpty then .fatal "missing command after condition"
      else
        let ws := guardSpec a
        match condition ws.2 with
        | none => .fatal ("bad condition " ++ ws.2)
        | some ok => if ok != ws.1 then .skipLine else processGuards condition rest
    else .proceed (a :: rest)

inductive NegRes where
  | fatal (msg : String)
  | ok (neg : Int) (args : List String)
  deriving DecidableEq, Repr

/-- script.go:510-523: a leading bare `!` sets neg = 1, a leading bare `?`
sets neg = -1; either alone on the line is fatal. -/
def processNeg : List String → NegRes
  | "!" :: rest => if rest.isEmpty then .fatal "! on line by itself" else .ok 1 rest
  | "?" :: rest => if rest.isEmpty then .fatal "? on line by itself" else .ok (-1) rest
  | args => .ok 0 args

/-- Static configuration of the run loop: the two line prefixes and the
oracles for variable expansion, condition evaluation and verb lookup (the
builtin table `scriptCmds` overlaid by `params.Cmds`, consulted in that
order; `knownCmd v = false` models both lookups returning nil). -/
structure LoopCfg where
  phasePrefix : String
  commentPrefix : String
  expand : String → String
  condition : String → Option Bool
  knownCmd : String → Bool

/-- What a single script line does, before command effects are applied. -/
inductive LineStep where
  | fatal (msg : String)
  | skip
  | exec (verb : String) (neg : Int) (args : List String)
  deriving DecidableEq, Repr

/-- The per-line part of `(*Script).run` (script.go:450-533): phase-prefix
and comment-prefix lines are skipped (their log bookkeeping is elided as
pure I/O), the line is parsed, an empty parse is skipped, condition guards
are processed, then the `!`/`?` modifier, then the verb is looked up
(unknown verb is fatal).  The `.ok _ []` fallback is unreachable: guard
processing only proceeds with a non-empty list and `processNeg` preserves
non-emptiness. -/
def stepLine (cfg : LoopCfg) (line : String) : LineStep :=
  if goHasPrefix line cfg.phasePrefix then .skip
  else if goHasPrefix line cfg.commentPrefix then .skip
  else
    match parse cfg.expand line with
    | .fatal msg => .fatal msg
    | .ok args =>
      if args.isEmpty then .skip
      else
        match processGuards cfg.condition args with
        | .fatal msg => .fatal msg
        | .skipLine => .skip
        | .proceed args' =>
          match processNeg args' with
          | .fatal msg => .fatal msg
          | .ok neg (verb :: cargs) =>
            if cfg.knownCmd verb then .exec verb neg cargs
            else .fatal ("unknown command " ++ verb)
          | .ok _ [] => .fatal "unknown command"

/-- Result of dispatching one command to its handler: the handler either
fails the test (`ts.Fatalf` aborts the unit) or returns an updated state,
possibly asking the run to stop early (`ts.stopped`). -/
inductive ExecOut (σ : Type) where
  | fatalCmd (msg : String)
  | ok (s : σ) (stopped : Bool)

/-- Result of running the remaining script lines. -/
inductive RunRes (σ : Type) where
  | fatal (lineno : Nat) (msg : String)
  | finished (s : σ)
  deriving DecidableEq, Repr

/-- The run loop (script.go:440-541) over an abstract command state `σ` and
command semantics `exec`: lines execute in order, `ts.lineno` counts every
line, a fatal line aborts the unit with its line number, and executed
commands are recorded in a trace of (line number, verb, neg, args).  The
end-of-script background drain (script.go:543-546) is modelled separately
(`runTeardown` / `cmdWait`). -/
def runLines (cfg : LoopCfg) (exec : String → Int → List String → σ → ExecOut σ) :
    List String → Nat → σ → RunRes σ × List (Nat × String × Int × List String)
  | [], _, s => (.finished s, [])
  | line :: rest, lineno, s =>
    let n := lineno + 1
    match stepLine cfg line with
    | .fatal msg => (.fatal n msg, [])
    | .skip => runLines cfg exec rest n s
    | .exec verb neg cargs =>
      match exec verb neg cargs s with
      | .fatalCmd msg => (.fatal n msg, [(n, verb, neg, cargs)])
      | .ok s' stopped =>
        if stopped then (.finished s', [(n, verb, neg, cargs)])
        else
          let r := runLines cfg exec rest n s'
          (r.1, (n, verb, neg, cargs) :: r.2)

/-! ## Environment model (script.go:865-874, 378-383, 78-86)

`envvarname` is not under src/ (it lowercases keys on Windows and is the
identity elsewhere); it is taken as an arbitrary normalization function
`norm`, so every theorem below holds for both platform behaviours. -/

/-- Go map read with zero-value default: `envMap[k]` (script.go:873). -/
def mapGet (m : List (String × String)) (k : String) : String :=
  match m.find? (fun p => p.1 = k) with
  | some p => p.2
  | none => ""

/-- Go map write: `envMap[k] = v`. -/
def mapSet (m : List (String × String)) (k v : String) : List (String × String) :=
  match m with
  | [] => [(k, v)]
  | p :: ps => if p.1 = k then (k, v) :: ps else p :: mapSet ps k v

/-- `strings.Index kv "="` plus the two slices `kv[:i]` / `kv[i+1:]`
(`strings.SplitN(kv, "=", 2)` splits at the same point): `none` models
`Index` returning `-1`. -/
def splitEqChars : List Char → Option (List Char × List Char)
  | [] => none
  | c :: cs =>
    if c = '=' then some ([], cs)
    else (splitEqChars cs).map (fun p => (c :: p.1, p.2))

/-- The `envMap` construction of `setup` (script.go:378-383): replay the
variable list in order; each entry containing `=` writes the normalized key
with the trailing value, so later entries overwrite earlier ones. -/
def replayEnv (norm : String → String) (env : List String) : List (String × String) :=
  env.foldl
    (fun m kv =>
      match splitEqChars kv.data with
      | some (k, v) => mapSet m (norm ⟨k⟩) ⟨v⟩
      | none => m)
    []

/-- `(*Env).Getenv` (script.go:78-86): walk the variable list backwards and
return the value of the first `KEY=VALUE` entry whose normalized key matches
(i.e. the last value written for that normalized key), or `""`. -/
def envGetenvList (norm : String → String) (vars : List String) (key0 : String) : String :=
  let key := norm key0
  match vars.reverse.find? (fun kv =>
      match splitEqChars kv.data with
      | some (k, _) => norm ⟨k⟩ = key
      | none => false) with
  | some kv =>
    match splitEqChars kv.data with
    | some (_, v) => (⟨v⟩ : String)
    | none => ""
  | none => ""

/-- The environment-relevant part of the `Script` state: the ordered
variable list `env` and the derived lookup map `envMap`. -/
structure EnvState where
  env : List String
  envMap : List (String × String)
  deriving DecidableEq, Repr

/-- `(*Script).Setenv` (script.go:866-869): append `key=value` to the list
and write the normalized key in the map. -/
def Setenv (norm : String → String) (st : EnvState) (key value : String) : EnvState :=
  { env := st.env ++ [key ++ "=" ++ value],
    envMap := mapSet st.envMap (norm key) value }

/-- `(*Script).Getenv` (script.go:872-874). -/
def Getenv (norm : String → String) (st : EnvState) (key : String) : String :=
  mapGet st.envMap (norm key)

/-- The claimed invariant: at every key, the lookup map agrees with the map
obtained by replaying the variable list in order, keeping the last value per
normalized key. -/
def EnvInv (norm : String → String) (st : EnvState) : Prop :=
  ∀ k, mapGet st.envMap k = mapGet (replayEnv norm st.env) k

/-! ## HTTP response classification (`(*Script).http`, script.go:974-1007) -/

/-- script.go:974. -/
def HTTP2_GOAWAY_CHECK : String :=
  "http2: server sent GOAWAY and closed the connection"

/-- Does `needle` occur as a contiguous run inside the list? -/
def infixOfChars (needle : List Char) : List Char → Bool
  | [] => needle.isEmpty
  | c :: rest => needle.isPrefixOf (c :: rest) || infixOfChars needle rest

/-- `strings.Contains`. -/
def goContains (s sub : String) : Bool :=
  infixOfChars sub.data s.data

/-- The failure messages `http` can return (script.go:994-1003); the Go code
formats them into error strings with `fmt.Errorf`, modelled here by
constructor, each carrying the pieces interpolated into the message. -/
inductive HttpErr where
  | weird (errs : List String) (body : String)
  | internalErr (errs : List String) (body : String)
  | badRequest (body : String)
  deriving DecidableEq, Repr

/-- The response body embedded in a failure message. -/
def HttpErr.body : HttpErr → String
  | .weird _ b => b
  | .internalErr _ b => b
  | .badRequest b => b

/-- The quadruple `http` returns: success output, body-on-failure, status
code, and the error (`none` = nil). -/
structure HttpOut where
  out : String
  bodyOut : String
  status : Int
  err : Option HttpErr
  deriving DecidableEq, Repr

/-- The response-classification part of `(*Script).http` (script.go:990-1006):
`body += "\n"`, then a non-empty transport-error list is classified — an
error whose text does *not* contain the GOAWAY signature yields the
"Internal Weirdr Error" failure, one that does contain it falls through to
the second `len(errs) != 0` check and yields the "Internal Error" failure —
then `>= 500` yields "Internal Error", `>= 400` yields "Bad Request", and
otherwise the body is returned as success output.  `errs` holds the
`Error()` strings of the gorequest transport errors. -/
def httpEnd (errs : List String) (statusCode : Int) (body0 : String) : HttpOut :=
  let body := body0 ++ "\n"
  match errs with
  | e :: _ =>
    if !(goContains e HTTP2_GOAWAY_CHECK) then
      ⟨"", body, statusCode, some (.weird errs body)⟩
    else
      ⟨"", body, statusCode, some (.internalErr errs body)⟩
  | [] =>
    if statusCode ≥ 500 then ⟨"", body, statusCode, some (.internalErr errs body)⟩
    else if statusCode ≥ 400 then ⟨"", body, statusCode, some (.badRequest body)⟩
    else ⟨body, "", statusCode, none⟩

/-- `(*Script).http` (script.go:977-1007) with the transport outcome of
`req.End()` supplied as data: the `client` sub-verb manages the registry
(modelled separately by `manageHttpClient`) and returns empty output
(script.go:981-985); every other invocation issues the request and
classifies the outcome via `httpEnd`. -/
def http (args : List String) (errs : List String) (statusCode : Int)
    (body0 : String) : HttpOut :=
  match args with
  | "client" :: _ => ⟨"", "", 0, none⟩
  | _ => httpEnd errs statusCode body0

/-! ## HTTP request building (script.go:1056-1181)

`*gorequest.SuperAgent` values are mutable and shared through the
`httpClients` registry, so they are modelled as addresses into an explicit
heap of request records: the gorequest builder methods mutate the record in
place (returning the same address), and `Clone` copies the record to a
fresh address.  `time.ParseDuration` and the file system behind
`ts.ReadFile` are not under src/ and are parameters. -/

/-- The request-template fields the mini-language touches. -/
structure SuperAgent where
  Method : String
  Url : String
  QueryData : List String
  SendData : List String
  FileData : List (String × String × String)
  BasicAuth : Option (String × String)
  Header : List (String × String)
  Retryable : Option (Int × Int × List Int)
  deriving DecidableEq, Repr

/-- `gorequest.New()`: a zero-valued agent. -/
def gorequestNew : SuperAgent :=
  ⟨"", "", [], [], [], none, [], none⟩

/-- Pointer dereference (addresses in the registry are always valid; the
default is never reached in the theorems, which carry validity bounds). -/
def heapGet (heap : List SuperAgent) (addr : Nat) : SuperAgent :=
  heap.getD addr gorequestNew

/-- In-place mutation of the record at `addr`. -/
def heapSet (heap : List SuperAgent) (addr : Nat) (f : SuperAgent → SuperAgent) :
    List SuperAgent :=
  heap.set addr (f (heapGet heap addr))

/-- `strings.ToUpper` (the mini-language keys are ASCII). -/
def goToUpper (s : String) : String :=
  ⟨s.data.map Char.toUpper⟩

/-- `strings.Fields`: split on white-space runs, dropping empty fields. -/
def fieldsAux : List Char → List Char → List String
  | [], acc => if acc.isEmpty then [] else [⟨acc.reverse⟩]
  | c :: rest, acc =>
    if goSpace c then
      if acc.isEmpty then fieldsAux rest []
      else ⟨acc.reverse⟩ :: fieldsAux rest []
    else fieldsAux rest (c :: acc)

def goFields (s : String) : List String :=
  fieldsAux s.data []

/-- `strings.Split` with a one-character separator. -/
def splitOnChar (sep : Char) : List Char → List (List Char)
  | [] => [[]]
  | c :: rest =>
    if c = sep then [] :: splitOnChar sep rest
    else
      match splitOnChar sep rest with
      | [] => [[c]]
      | l :: ls => (c :: l) :: ls

def goSplitChar (s : String) (sep : Char) : List String :=
  (splitOnChar sep s.data).map (⟨·⟩)

/-- The first separator occurrence, with the pieces around it. -/
def splitFirstChar (sep : Char) : List Char → Option (List Char × List Char)
  | [] => none
  | c :: cs =>
    if c = sep then some ([], cs)
    else (splitFirstChar sep cs).map (fun p => (c :: p.1, p.2))

/-- `strings.SplitN(arg, "=", 2)` as used at script.go:1094-1099: the key and,
when a `=` is present, the value. -/
def splitN2 (s : String) (sep : Char) : String × Option String :=
  match splitFirstChar sep s.data with
  | some (k, v) => (⟨k⟩, some ⟨v⟩)
  | none => (s, none)

/-- `strconv.Atoi` (overflow elided — `Int` is unbounded here). -/
def digitsVal (ds : List Char) : Option Nat :=
  if ds.isEmpty then none
  else ds.foldl
    (fun acc c => acc.bind (fun n =>
      if c.isDigit then some (n * 10 + (c.toNat - '0'.toNat)) else none))
    (some 0)

def goAtoi (s : String) : Option Int :=
  match s.data with
  | '+' :: ds => (digitsVal ds).map Int.ofNat
  | '-' :: ds => (digitsVal ds).map (fun n => -(n : Int))
  | ds => (digitsVal ds).map Int.ofNat

/-- Result of applying arguments to a request: `ok` carries the heap after
the in-place mutations and the request's address; `err` is a returned error
(the unknown-key case, script.go:1177); `fatal` is a `ts.Fatalf`/`ts.Check`
abort from inside (bad retry spec, unreadable file); `panicked` is the Go
runtime panic on `flds[1]` when an AUTH/HEADER value has no `:`
(script.go:1155,1160). -/
inductive AppRes where
  | ok (heap : List SuperAgent) (addr : Nat)
  | err (msg : String)
  | fatal (msg : String)
  | panicked
  deriving DecidableEq, Repr

/-- What one `switch K` case of `applyArgToReq` does: either an in-place
mutation of the request record the loop is building (`mutate f` — every
successful Go case assigns fields of `req` and returns the same pointer), or
one of the three failure modes. -/
inductive SwitchRes where
  | mutate (f : SuperAgent → SuperAgent)
  | err (msg : String)
  | fatal (msg : String)
  | panicked

/-- The `switch K` body of `(*Script).applyArgToReq` (script.go:1103-1180),
with the Go locals `key`, `val` and `K` bound as parameters; each case's
field assignments to `req` are returned as the in-place mutation to apply. -/
def applyArgSwitch (readFile : String → Option String)
    (parseDuration : String → Option Int)
    (arg key val K : String) : SwitchRes :=
  if K = "U" ∨ K = "URL" then
    .mutate (fun r => { r with Url := val })
  else if K = "T" ∨ K = "TYPE" then
    .mutate (fun r => { r with Url := val })
  else if K = "Q" ∨ K = "QUERY" then
    match (if goHasPrefix val "@" then readFile (goDrop val 1) else some val) with
    | none => .fatal "cannot read file"
    | some v =>
      .mutate (fun r => { r with QueryData := r.QueryData ++ [v] })
  else if K = "R" ∨ K = "RETRY" then
    match goFields val with
    | cnt :: tmr :: c0 :: codes =>
      match goAtoi cnt with
      | none => .fatal "bad retry count"
      | some c =>
        match parseDuration tmr with
        | none => .fatal "bad retry duration"
        | some t =>
          match (c0 :: codes).mapM goAtoi with
          | none => .fatal "bad retry code"
          | some cs =>
            .mutate (fun r => { r with Retryable := some (c, t, cs) })
    | _ => .fatal "http retry usage: RETRY:'<count> <timer> [codes...]'"
  else if K = "D" ∨ K = "DATA" ∨ K = "S" ∨ K = "SEND" then
    match (if goHasPrefix val "@" then readFile (goDrop val 1) else some val) with
    | none => .fatal "cannot read file"
    | some v =>
      .mutate (fun r => { r with SendData := r.SendData ++ [v] })
  else if K = "F" ∨ K = "FILE" then
    let flds := goSplitChar val ':'
    let filename := goTrimSpace (flds.headD "")
    let fieldname := if flds.length > 1 then goTrimSpace (flds.getD 1 "") else ""
    match readFile filename with
    | none => .fatal "cannot read file"
    | some content =>
      .mutate (fun r => { r with FileData := r.FileData ++ [(content, filename, fieldname)] })
  else if K = "A" ∨ K = "AUTH" then
    match goSplitChar val ':' with
    | k :: v :: _ =>
      .mutate (fun r => { r with BasicAuth := some (goTrimSpace k, goTrimSpace v) })
    | _ => .panicked
  else if K = "H" ∨ K = "HEADER" then
    match goSplitChar val ':' with
    | k :: v :: _ =>
      .mutate (fun r => { r with Header := mapSet r.Header (goTrimSpace k) (goTrimSpace v) })
    | _ => .panicked
  else if K = "M" ∨ K = "METHOD" then
    .mutate (fun r => { r with Method := K })
  else if K = "GET" ∨ K = "POST" ∨ K = "HEAD" ∨ K = "PUT" ∨ K = "DELETE" ∨
      K = "PATCH" ∨ K = "OPTIONS" then
    .mutate (fun r => { r with Method := K })
  else if goHasPrefix key "http" then
    .mutate (fun r => { r with Url := key })
  else
    .err ("unknown http arg/key: " ++ arg ++ " / " ++ key)

/-- `(*Script).applyArgToReq` (script.go:1091-1181): split the argument at
the first `=` into `key` and `val` (script.go:1094-1099), uppercase the key
(script.go:1101) and dispatch on it. -/
def applyArgToReq (readFile : String → Option String)
    (parseDuration : String → Option Int)
    (heap : List SuperAgent) (addr : Nat) (arg : String) : AppRes :=
  match splitN2 arg '=' with
  | (key, valOpt) =>
    match applyArgSwitch readFile parseDuration arg key (valOpt.getD "") (goToUpper key) with
    | .mutate f => .ok (heapSet heap addr f) addr
    | .err m => .err m
    | .fatal m => .fatal m
    | .panicked => .panicked

/-- `(*Script).applyArgsToReq` (script.go:1079-1089). -/
def applyArgsToReq (readFile : String → Option String)
    (parseDuration : String → Option Int)
    (heap : List SuperAgent) (addr : Nat) : List String → AppRes
  | [] => .ok heap addr
  | arg :: rest =>
    match applyArgToReq readFile parseDuration heap addr arg with
    | .ok heap' addr' => applyArgsToReq readFile parseDuration heap' addr' rest
    | other => other

/-- `(*Script).applyDefaultsToReq` (script.go:1072-1077). -/
def applyDefaultsToReq (r : SuperAgent) : SuperAgent :=
  { r with Method := "GET" }

/-- `(*Script).newReqFromArgs` (script.go:1065-1070): allocate a fresh agent,
default it, and apply the arguments to it. -/
def newReqFromArgs (readFile : String → Option String)
    (parseDuration : String → Option Int)
    (heap : List SuperAgent) (args : List String) : AppRes :=
  applyArgsToReq readFile parseDuration
    (heap ++ [applyDefaultsToReq gorequestNew]) heap.length args

/-- The `httpClients` registry: names bound to template addresses. -/
def clientsLookup (clients : List (String × Nat)) (name : String) : Option Nat :=
  (clients.find? (fun p => p.1 = name)).map (·.2)

/-- `(*Script).reqFromArgs` (script.go:1056-1063): when the first argument
names a registered client, clone its template to a fresh address and apply
the remaining arguments to the clone; otherwise build a one-time request.
The registry itself is not modified (only `manageHttpClient` does that). -/
def reqFromArgs (readFile : String → Option String)
    (parseDuration : String → Option Int)
    (heap : List SuperAgent) (clients : List (String × Nat))
    (args : List String) : AppRes :=
  match args with
  | [] => .panicked
  | a :: rest =>
    match clientsLookup clients a with
    | some addr =>
      applyArgsToReq readFile parseDuration
        (heap ++ [heapGet heap addr]) heap.length rest
    | none => newReqFromArgs readFile parseDuration heap (a :: rest)

/-- Result of the `http client` management sub-verb (script.go:1009-1054). -/
inductive ManageRes where
  | ok (heap : List SuperAgent) (clients : List (String × Nat))
  | err (msg : String)
  | fatal (msg : String)
  | panicked
  deriving DecidableEq, Repr

/-- `(*Script).manageHttpClient` (script.go:1009-1054): `new` builds a fresh
template and binds the name to it; `mod` applies further arguments *to the
stored template's own address* (no clone — this is the one operation that
mutates a stored template); `del` unbinds the name; unknown names and ops
are fatal.  A missing name argument defaults to "default". -/
def manageHttpClient (readFile : String → Option String)
    (parseDuration : String → Option Int)
    (heap : List SuperAgent) (clients : List (String × Nat))
    (args : List String) : ManageRes :=
  match args with
  | [] => .fatal "usage: http client [new,del] <name> http-args..."
  | key :: rest =>
    let nameArgs : String × List String :=
      match rest with
      | [] => ("default", [])
      | n :: rest2 => (n, rest2)
    let name := nameArgs.1
    let args2 := nameArgs.2
    if key = "new" then
      match newReqFromArgs readFile parseDuration heap args2 with
      | .ok heap' addr => .ok heap' (mapSetClient clients name addr)
      | .err m => .fatal m
      | .fatal m => .fatal m
      | .panicked => .panicked
    else if key = "mod" then
      match clientsLookup clients name with
      | none => .fatal ("unknown http client " ++ name)
      | some addr =>
        match applyArgsToReq readFile parseDuration heap addr args2 with
        | .ok heap' addr' => .ok heap' (mapSetClient clients name addr')
        | .err m => .fatal m
        | .fatal m => .fatal m
        | .panicked => .panicked
    else if key = "del" then
      match clientsLookup clients name with
      | none => .fatal ("unknown http client " ++ name)
      | some _ => .ok heap (clients.filter (fun p => p.1 ≠ name))
    else .fatal "usage: http client <op> args..."
where
  /-- Go map write on the registry. -/
  mapSetClient (m : List (String × Nat)) (k : String) (v : Nat) : List (String × Nat) :=
    match m with
    | [] => [(k, v)]
    | p :: ps => if p.1 = k then (k, v) :: ps else p :: mapSetClient ps k v

/-! ## Golden-file updates (`(*Script).applyScriptUpdates`, script.go:556-588) -/

/-- One entry of the in-memory txtar archive. -/
structure TxtarFile where
  name : String
  data : String
  deriving DecidableEq, Repr

/-- Outcome of the update pass: `panicked` models
`panic("script update file not found")` (script.go:581, an unrecoverable
internal error that halts the run), `fatalRes` models `ts.t.Fatal` (a test
failure, reached only when `txtar.Quote` errors), `okRes` carries the
updated archive entries (their serialization back over the script file is
I/O and elided). -/
inductive UpdateRes where
  | panicked
  | fatalRes (msg : String)
  | okRes (files : List TxtarFile)
  deriving DecidableEq, Repr

/-- The inner loop of `applyScriptUpdates` for one recorded update
(script.go:561-578): replace the data of *every* archive entry whose name
matches, quoting the content first when the raw txtar text requires it.
`needsQuote` / `quote` model `txtar.NeedsQuote` / `txtar.Quote`, which are
not under src/; `quote = none` models `Quote` returning an error.  Returns
the updated entries and the `found` flag. -/
def updateFiles (needsQuote : String → Bool) (quote : String → Option String)
    (name content : String) : List TxtarFile → Except String (List TxtarFile × Bool)
  | [] => .ok ([], false)
  | f :: fs =>
    if f.name = name then
      match (if needsQuote content then quote content else some content) with
      | none => .error ("cannot update script file " ++ name)
      | some d =>
        match updateFiles needsQuote quote name content fs with
        | .ok (fs', _) => .ok ({ f with data := d } :: fs', true)
        | .error m => .error m
    else
      match updateFiles needsQuote quote name content fs with
      | .ok (fs', found) => .ok (f :: fs', found)
      | .error m => .error m

/-- `(*Script).applyScriptUpdates` (script.go:556-588) over the recorded
(archive-path, new-content) pairs (a Go map, modelled as a list of distinct
keys): apply each update in turn; an update matching no entry panics
(script.go:580-582). -/
def applyScriptUpdates (needsQuote : String → Bool) (quote : String → Option String) :
    List TxtarFile → List (String × String) → UpdateRes
  | files, [] => .okRes files
  | files, (name, content) :: rest =>
    match updateFiles needsQuote quote name content files with
    | .error m => .fatalRes m
    | .ok (files', found) =>
      if found then applyScriptUpdates needsQuote quote files' rest
      else .panicked

/-- The bytes an update stores for a matched entry: quoted when needed. -/
def quoteEnc (needsQuote : String → Bool) (quote : String → Option String)
    (content : String) : String :=
  if needsQuote content then (quote content).getD content else content

/-- The per-entry effect of a whole update set (keys distinct). -/
def updatedData (needsQuote : String → Bool) (quote : String → Option String)
    (updates : List (String × String)) (f : TxtarFile) : TxtarFile :=
  match updates.find? (fun u => u.1 = f.name) with
  | some u => { f with data := quoteEnc needsQuote quote u.2 }
  | none => f

/-! ## Background processes (script.go:322-326, 408-423, 543-546) -/

/-- A backgrounded command: its recorded expectation (`neg`, from the
launching line's modifier) and the success/failure its completion signal
will report when awaited. -/
structure BackgroundCmd where
  neg : Int
  exitSuccess : Bool
  deriving DecidableEq, Repr

/-- The background-relevant test state: the active list and whether the
test has failed. -/
structure BgState where
  background : List BackgroundCmd
  failed : Bool
  deriving DecidableEq, Repr

inductive TeardownEvent where
  | interrupt (b : BackgroundCmd)
  | drain (b : BackgroundCmd)
  deriving DecidableEq, Repr

/-- First loop of the teardown defer (script.go:412-414): interrupt every
outstanding background process. -/
def interruptAll : List BackgroundCmd → List TeardownEvent
  | [] => []
  | b :: bs => .interrupt b :: interruptAll bs

/-- Second loop (script.go:415-417): await every completion signal. -/
def drainAll : List BackgroundCmd → List TeardownEvent
  | [] => []
  | b :: bs => .drain b :: drainAll bs

/-- The deferred teardown of `(*Script).run` (script.go:408-423): interrupt
all, then drain all, then `ts.background = nil`.  No expectation is checked
and the test verdict is untouched. -/
def runTeardown (s : BgState) : BgState × List TeardownEvent :=
  ({ s with background := [] }, interruptAll s.background ++ drainAll s.background)

/-- Does an awaited background command's outcome disagree with its recorded
expectation?  (`!` expects failure, plain expects success, `?` accepts
either.) -/
def bgMismatch (b : BackgroundCmd) : Bool :=
  (b.neg == 1 && b.exitSuccess) || (b.neg == 0 && !b.exitSuccess)

/-- Modelled from the spec: the `wait` builtin (`cmdWait`, invoked at
script.go:546 and by the `wait` command) is not under src/.  Spec §4.5: "An
explicit wait command drains the active list: any process whose actual
success/failure disagrees with its recorded expectation is a command
failure; regardless of outcome every entry is removed from the active list
afterward." -/
def waitDrain : List BackgroundCmd → Bool
  | [] => false
  | b :: bs => bgMismatch b || waitDrain bs

/-- Modelled from the spec (see `waitDrain`): drain every entry, fail the
test on any expectation mismatch, and clear the list. -/
def cmdWait (s : BgState) : BgState :=
  { background := [], failed := s.failed || waitDrain s.background }

/-! ## Proofs -/

lemma string_mk_cons (s : String) (c : Char) (cs : List Char) :
    s ++ String.mk (c :: cs) = (s ++ c.toString) ++ String.mk cs :=
  congrArg String.mk (by simp)

lemma string_mk_nil (s : String) : s ++ String.mk [] = s := by
  have : String.mk [] = "" := rfl
  rw [this]; simp

/-- Inside a quoted span, a non-quote character just extends the pending chunk. -/
lemma parseAux_quoted_save {c : Char} (hc : c ≠ '\'') (expand : String → String)
    (rest : List Char) (chunk arg : String) (args : List String) :
    parseAux expand (c :: rest) true (some chunk) arg args =
    parseAux expand rest true (some (chunk ++ c.toString)) arg args := by
  match rest with
  | [] => simp [parseAux, hc]
  | r :: rs => by_cases hr : r = '\'' <;> simp [parseAux, hc, hr]

/-- Inside a quoted span, a whole quote-free stretch of characters is appended
verbatim to the pending chunk (no expansion, no splitting). -/
lemma parseAux_quoted_chunk (expand : String → String) :
    ∀ (content : List Char), (∀ ch ∈ content, ch ≠ '\'') →
    ∀ (rest : List Char) (chunk arg : String) (args : List String),
    parseAux expand (content ++ rest) true (some chunk) arg args =
    parseAux expand rest true (some (chunk ++ String.mk content)) arg args := by
  intro content
  induction content with
  | nil =>
    intro _ rest chunk arg args
    rw [string_mk_nil]; rfl
  | cons c cs ih =>
    intro h rest chunk arg args
    have hc : c ≠ '\'' := h c (by simp)
    rw [List.cons_append, parseAux_quoted_save hc, ih (fun ch hch => h ch (by simp [hch])),
      string_mk_cons]

/-- Opening quote with no pending chunk. -/
lemma parseAux_open_none (expand : String → String) (rest : List Char)
    (arg : String) (args : List String) :
    parseAux expand ('\'' :: rest) false none arg args =
    parseAux expand rest true (some "") arg args := by
  match rest with
  | [] => simp [parseAux]
  | r :: rs => by_cases hr : r = '\'' <;> simp [parseAux, hr]

/-- A doubled quote inside a quoted span: flush the chunk and start the next
chunk at the second quote character, so the argument gains one literal quote. -/
lemma parseAux_quoted_double (expand : String → String) (rest2 : List Char)
    (chunk arg : String) (args : List String) :
    parseAux expand ('\'' :: '\'' :: rest2) true (some chunk) arg args =
    parseAux expand rest2 true (some "'") (arg ++ chunk) args := by
  simp [parseAux]

/-- A closing quote at the very end of the line, followed by the end-of-line flush. -/
lemma parseAux_close_end (expand : String → String) (chunk arg : String)
    (args : List String) :
    parseAux expand ['\''] true (some chunk) arg args =
    .ok (args ++ [(arg ++ chunk) ++ expand ""]) := by
  simp [parseAux]

/-- Reaching the end of the line inside a quoted span is fatal, whatever the
remaining quote-free content was. -/
lemma parseAux_quoted_unterminated (expand : String → String) :
    ∀ (content : List Char), (∀ ch ∈ content, ch ≠ '\'') →
    ∀ (chunk arg : String) (args : List String),
    parseAux expand content true (some chunk) arg args =
    .fatal "unterminated quoted argument" := by
  intro content
  induction content with
  | nil => intro _ chunk arg args; simp [parseAux]
  | cons c cs ih =>
    intro h chunk arg args
    have hc : c ≠ '\'' := h c (by simp)
    rw [parseAux_quoted_save hc, ih (fun ch hch => h ch (by simp [hch]))]

lemma string_mk_data (s : String) : String.mk s.data = s := rfl

/-- C1: for every script line consisting of a single-quoted span, the parser
yields the span's contents as one argument, verbatim — independent of the
variable-expansion function (no substitution, no splitting) — and a doubled
quote `''` inside the span yields exactly one literal quote character at that
position.  The hypothesis `expand "" = ""` holds for the engine's actual
expander `ts.expand`, which is `os.Expand`-based and maps the empty string to
itself. -/
theorem parse_singleQuoted_span_C1 (expand : String → String) (hexp : expand "" = "")
    (c₁ c₂ : String) (h1 : ∀ ch ∈ c₁.data, ch ≠ '\'') (h2 : ∀ ch ∈ c₂.data, ch ≠ '\'') :
    parse expand ("'" ++ c₁ ++ "''" ++ c₂ ++ "'") = .ok [c₁ ++ "'" ++ c₂] := by
  have hdata : ("'" ++ c₁ ++ "''" ++ c₂ ++ "'").data
      = '\'' :: (c₁.data ++ ('\'' :: '\'' :: (c₂.data ++ ['\'']))) := by
    simp [String.data_append]
  unfold parse
  rw [hdata, parseAux_open_none, parseAux_quoted_chunk expand c₁.data h1,
    parseAux_quoted_double, parseAux_quoted_chunk expand c₂.data h2,
    parseAux_close_end, hexp]
  simp [string_mk_data, String.append_assoc]

/-- Outside quotes, a separator character flushes the pending chunk. -/
lemma parseAux_unquoted_sep {c : Char} (hc : c = ' ' ∨ c = '\t' ∨ c = '\r')
    (expand : String → String) (rest : List Char) (start : Option String)
    (arg : String) (args : List String) :
    parseAux expand (c :: rest) false start arg args =
    parseAux expand rest false none ""
      (match start with
       | some chunk => args ++ [arg ++ expand chunk]
       | none => args) := by
  have hq : c ≠ '\'' := by rcases hc with h | h | h <;> simp [h]
  have hn : c ≠ '#' := by rcases hc with h | h | h <;> simp [h]
  match rest with
  | [] => rcases hc with h | h | h <;> subst h <;> cases start <;> simp [parseAux]
  | r :: rs =>
    by_cases hr : r = '\'' <;>
      rcases hc with h | h | h <;> subst h <;> cases start <;> simp [parseAux, hr]

/-- Outside quotes, an ordinary character extends the pending chunk. -/
lemma parseAux_unquoted_save {c : Char} (hq : c ≠ '\'') (hn : c ≠ '#')
    (hs : ¬(c = ' ' ∨ c = '\t' ∨ c = '\r'))
    (expand : String → String) (rest : List Char) (start : Option String)
    (arg : String) (args : List String) :
    parseAux expand (c :: rest) false start arg args =
    parseAux expand rest false (some (start.getD "" ++ c.toString)) arg args := by
  push_neg at hs
  obtain ⟨h1, h2, h3⟩ := hs
  match rest with
  | [] => cases start <;> simp [parseAux, hq, hn, h1, h2, h3]
  | r :: rs =>
    by_cases hr : r = '\'' <;> cases start <;> simp [parseAux, hq, hn, h1, h2, h3, hr]

/-- Opening quote with a pending chunk: the chunk is flushed (with expansion)
into the argument and a fresh quoted chunk starts. -/
lemma parseAux_open_some (expand : String → String) (rest : List Char)
    (chunk arg : String) (args : List String) :
    parseAux expand ('\'' :: rest) false (some chunk) arg args =
    parseAux expand rest true (some "") (arg ++ expand chunk) args := by
  match rest with
  | [] => simp [parseAux]
  | r :: rs => by_cases hr : r = '\'' <;> simp [parseAux, hr]

/-- Processing a quote-free, hash-free stretch of characters outside quotes
reaches its end still outside quotes (no fatal error, no early stop). -/
lemma parseAux_unquoted_progress (expand : String → String) :
    ∀ (pre : List Char), (∀ ch ∈ pre, ch ≠ '\'' ∧ ch ≠ '#') →
    ∀ (rest : List Char) (start : Option String) (arg : String) (args : List String),
    ∃ start' arg' args',
      parseAux expand (pre ++ rest) false start arg args =
      parseAux expand rest false start' arg' args' := by
  intro pre
  induction pre with
  | nil => intro _ rest start arg args; exact ⟨start, arg, args, rfl⟩
  | cons c cs ih =>
    intro h rest start arg args
    have hc := h c (by simp)
    have hcs : ∀ ch ∈ cs, ch ≠ '\'' ∧ ch ≠ '#' := fun ch hch => h ch (by simp [hch])
    rw [List.cons_append]
    by_cases hs : c = ' ' ∨ c = '\t' ∨ c = '\r'
    · rw [parseAux_unquoted_sep hs]
      exact ih hcs rest none "" _
    · rw [parseAux_unquoted_save hc.1 hc.2 hs]
      exact ih hcs rest _ arg args

/-- A concrete non-trivial expander (used by witnesses): it rewrites every
non-empty chunk, so any substitution applied to quoted content would show. -/
def markingExpand (s : String) : String :=
  if s = "" then "" else s ++ "$X"

/-- Witness for C1 at a concrete input: the canonical doubled-quote example,
with a deliberately non-trivial expander showing no substitution happens. -/
theorem parse_singleQuoted_span_C1_witness :
    parse markingExpand "'Don''t communicate'" = .ok ["Don't communicate"] := by
  have h := parse_singleQuoted_span_C1 markingExpand (by decide) "Don" "t communicate"
    (by decide) (by decide)
  have e1 : ("'" ++ "Don" ++ "''" ++ "t communicate" ++ "'") = "'Don''t communicate'" := by
    decide
  have e2 : ("Don" ++ "'" ++ "t communicate") = "Don't communicate" := by decide
  rw [e1, e2] at h
  exact h

/-- An agreeing guard strips itself and guard processing continues on the rest. -/
lemma processGuards_agree_step (condition : String → Option Bool) (x : String)
    (rest : List String) (hx : guardTok x = true) (hne : rest ≠ [])
    (hag : condition (guardSpec x).2 = some (guardSpec x).1) :
    processGuards condition (x :: rest) = processGuards condition rest := by
  have : rest.isEmpty = false := by cases rest with
    | nil => exact absurd rfl hne
    | cons _ _ => rfl
  simp [processGuards, hx, this, hag]

/-- A disagreeing guard (with a command still following it) skips the line. -/
lemma processGuards_disagree (condition : String → Option Bool) (x : String)
    (rest : List String) (hx : guardTok x = true) (hne : rest ≠ []) (b : Bool)
    (hb : condition (guardSpec x).2 = some b) (hd : b ≠ (guardSpec x).1) :
    processGuards condition (x :: rest) = .skipLine := by
  have : rest.isEmpty = false := by cases rest with
    | nil => exact absurd rfl hne
    | cons _ _ => rfl
  simp [processGuards, hx, this, hb, hd]

/-- A chain of agreeing guards followed by one disagreeing guard (with a
command after it) skips the line, each guard stripping itself in turn. -/
lemma processGuards_chain_skip (condition : String → Option Bool) :
    ∀ (gs : List String),
    (∀ x ∈ gs, guardTok x = true ∧ condition (guardSpec x).2 = some (guardSpec x).1) →
    ∀ (g : String) (tl : List String), guardTok g = true → tl ≠ [] →
    ∀ (b : Bool), condition (guardSpec g).2 = some b → b ≠ (guardSpec g).1 →
    processGuards condition (gs ++ g :: tl) = .skipLine := by
  intro gs
  induction gs with
  | nil =>
    intro _ g tl hg htl b hb hd
    exact processGuards_disagree condition g tl hg htl b hb hd
  | cons x xs ih =>
    intro h g tl hg htl b hb hd
    have hx := h x (by simp)
    rw [List.cons_append,
      processGuards_agree_step condition x _ hx.1 (by simp) hx.2]
    exact ih (fun y hy => h y (by simp [hy])) g tl hg htl b hb hd

/-- C2: on a command line prefixed by `[cond]`/`[!cond]` guards, each guard
strips itself before the next is evaluated, and as soon as an evaluated
guard's condition disagrees with its requested polarity the rest of the line
is skipped: the run moves on to the next line with the same command state,
no command executes (the trace is unchanged) and no failure is produced. -/
theorem runLines_guard_skip_C2 {σ : Type}
    (cfg : LoopCfg) (exec : String → Int → List String → σ → ExecOut σ)
    (line : String) (rest : List String) (lineno : Nat) (s : σ)
    (gs : List String) (g : String) (tl : List String)
    (hp : goHasPrefix line cfg.phasePrefix = false)
    (hcm : goHasPrefix line cfg.commentPrefix = false)
    (hparse : parse cfg.expand line = .ok (gs ++ g :: tl))
    (hgs : ∀ x ∈ gs, guardTok x = true ∧ cfg.condition (guardSpec x).2 = some (guardSpec x).1)
    (hgt : guardTok g = true) (b : Bool)
    (hb : cfg.condition (guardSpec g).2 = some b) (hd : b ≠ (guardSpec g).1)
    (htl : tl ≠ []) :
    runLines cfg exec (line :: rest) lineno s = runLines cfg exec rest (lineno + 1) s := by
  have hempty : (gs ++ g :: tl).isEmpty = false := by
    cases gs <;> rfl
  have hstep : stepLine cfg line = .skip := by
    unfold stepLine
    rw [hp, hcm, hparse]
    simp only [Bool.false_eq_true, if_false, hempty,
      processGuards_chain_skip cfg.condition gs hgs g tl hgt htl b hb hd]
  simp [runLines, hstep]

def condW : String → Option Bool :=
  fun c => if c = "a" then some true else if c = "b" then some true else none

def cfgW : LoopCfg :=
  { phasePrefix := "#", commentPrefix := "~", expand := id,
    condition := condW, knownCmd := fun _ => true }

def execW : String → Int → List String → Unit → ExecOut Unit :=
  fun _ _ _ _ => .ok () false

/-- Witness for C2: `[a]` agrees (condition `a` true, wanted true), `[!b]`
disagrees (condition `b` true, wanted false), so the `foo x` command is
skipped and the run continues at the next line with no failure. -/
theorem runLines_guard_skip_C2_witness :
    runLines cfgW execW ["[a] [!b] foo x", "next"] 0 () =
    runLines cfgW execW ["next"] 1 () :=
  runLines_guard_skip_C2 cfgW execW "[a] [!b] foo x" ["next"] 0 ()
    ["[a]"] "[!b]" ["foo", "x"] (by decide) (by decide) (by decide)
    (by decide) (by decide) true (by decide) (by decide) (by decide)

/-- C9: a script line containing an unterminated single-quoted span (a quote
after a quote-free, hash-free prefix, never closed) is an immediate fatal
parse error: the run aborts at that line's number, no command on that line
is dispatched, and no later line executes (the remaining trace is empty). -/
theorem runLines_untermQuote_C9 {σ : Type}
    (cfg : LoopCfg) (exec : String → Int → List String → σ → ExecOut σ)
    (pre c : String) (rest : List String) (lineno : Nat) (s : σ)
    (hpre : ∀ ch ∈ pre.data, ch ≠ '\'' ∧ ch ≠ '#')
    (hc : ∀ ch ∈ c.data, ch ≠ '\'')
    (hp : goHasPrefix (pre ++ "'" ++ c) cfg.phasePrefix = false)
    (hcm : goHasPrefix (pre ++ "'" ++ c) cfg.commentPrefix = false) :
    runLines cfg exec ((pre ++ "'" ++ c) :: rest) lineno s =
    (.fatal (lineno + 1) "unterminated quoted argument", []) := by
  have hdata : (pre ++ "'" ++ c).data = pre.data ++ ('\'' :: c.data) := by
    simp [String.data_append]
  have hparse : parse cfg.expand (pre ++ "'" ++ c) = .fatal "unterminated quoted argument" := by
    unfold parse
    rw [hdata]
    obtain ⟨start', arg', args', heq⟩ :=
      parseAux_unquoted_progress cfg.expand pre.data hpre ('\'' :: c.data) none "" []
    rw [heq]
    cases start' with
    | none => rw [parseAux_open_none, parseAux_quoted_unterminated _ c.data hc]
    | some chunk => rw [parseAux_open_some, parseAux_quoted_unterminated _ c.data hc]
  have hstep : stepLine cfg (pre ++ "'" ++ c) = .fatal "unterminated quoted argument" := by
    unfold stepLine
    rw [hp, hcm, hparse]
    rfl
  simp [runLines, hstep]

lemma mapGet_mapSet_self (m : List (String × String)) (k v : String) :
    mapGet (mapSet m k v) k = v := by
  induction m with
  | nil => simp [mapGet, mapSet]
  | cons p ps ih =>
    by_cases h : p.1 = k <;> simp [mapGet, mapSet, h] at ih ⊢
    · exact ih

lemma mapGet_mapSet_ne (m : List (String × String)) (k v k' : String) (h : k ≠ k') :
    mapGet (mapSet m k v) k' = mapGet m k' := by
  induction m with
  | nil => simp [mapGet, mapSet, List.find?, h]
  | cons p ps ih =>
    by_cases hp : p.1 = k
    · simp [mapGet, mapSet, List.find?, hp, h]
    · by_cases hp' : p.1 = k'
      · simp [mapGet, mapSet, List.find?, hp, hp', Ne.symm h]
      · simpa [mapGet, mapSet, List.find?, hp, hp'] using ih

lemma splitEqChars_append (l r : List Char) (h : '=' ∉ l) :
    splitEqChars (l ++ '=' :: r) = some (l, r) := by
  induction l with
  | nil => simp [splitEqChars]
  | cons c cs ih =>
    have hc : c ≠ '=' := fun hc => h (by simp [hc])
    simp [splitEqChars, hc, ih (fun hm => h (by simp [hm]))]

lemma replayEnv_snoc (norm : String → String) (env : List String) (kv : String) :
    replayEnv norm (env ++ [kv]) =
    match splitEqChars kv.data with
    | some (k, v) => mapSet (replayEnv norm env) (norm ⟨k⟩) ⟨v⟩
    | none => replayEnv norm env := by
  simp [replayEnv, List.foldl_append]

/-- The replay map's value at a normalized key is exactly what the
reverse search of `(*Env).Getenv` (script.go:78-86) returns: the last value
written for that normalized key, `""` when absent. -/
lemma mapGet_replay_normKey (norm : String → String) :
    ∀ (env : List String) (key0 : String),
    mapGet (replayEnv norm env) (norm key0) = envGetenvList norm env key0 := by
  intro env
  induction env using List.reverseRecOn with
  | nil => intro key0; simp [replayEnv, envGetenvList, mapGet]
  | append_singleton env kv ih =>
    intro key0
    rw [replayEnv_snoc]
    cases hsplit : splitEqChars kv.data with
    | none =>
      simpa [envGetenvList, List.reverse_append, List.find?, hsplit] using ih key0
    | some p =>
      obtain ⟨k, v⟩ := p
      by_cases hk : norm ⟨k⟩ = norm key0
      · rw [← hk, mapGet_mapSet_self]
        simp [envGetenvList, List.reverse_append, List.find?, hsplit, hk]
      · rw [mapGet_mapSet_ne _ _ _ _ hk]
        simpa [envGetenvList, List.reverse_append, List.find?, hsplit, hk] using ih key0

/-- C3 (amended: provided the key contains no `=` — `Script.Setenv`, unlike
the setup-time `Env.Setenv`, does not validate its key, and a key containing
`=` makes the appended `KEY=VALUE` entry split at the wrong place): under
that proviso `Setenv` preserves the replay invariant (the lookup map equals
the replay of the variable list, last write per normalized key winning), and
under the resulting invariant `Getenv` returns the value just written for
the key, and in general the last value written for the case-normalized key
(empty string if absent), for any normalization `norm` (`envvarname` is not
under src/). -/
theorem setenv_getenv_envInv_C3 (norm : String → String) (st : EnvState)
    (key value : String) (hinv : EnvInv norm st) (hkey : '=' ∉ key.data) :
    EnvInv norm (Setenv norm st key value) ∧
    Getenv norm (Setenv norm st key value) key = value ∧
    (∀ k0, Getenv norm (Setenv norm st key value) k0
        = envGetenvList norm (Setenv norm st key value).env k0) := by
  have hdata : (key ++ "=" ++ value).data = key.data ++ '=' :: value.data := by
    simp [String.data_append]
  have hsplit : splitEqChars (key ++ "=" ++ value).data = some (key.data, value.data) := by
    rw [hdata]; exact splitEqChars_append key.data value.data hkey
  have hrep : replayEnv norm (st.env ++ [key ++ "=" ++ value])
      = mapSet (replayEnv norm st.env) (norm key) value := by
    rw [replayEnv_snoc, hsplit]
  have hinv' : EnvInv norm (Setenv norm st key value) := by
    intro k
    show mapGet (mapSet st.envMap (norm key) value) k
        = mapGet (replayEnv norm (st.env ++ [key ++ "=" ++ value])) k
    rw [hrep]
    by_cases hk : norm key = k
    · subst hk
      rw [mapGet_mapSet_self, mapGet_mapSet_self]
    · rw [mapGet_mapSet_ne _ _ _ _ hk, mapGet_mapSet_ne _ _ _ _ hk]
      exact hinv k
  refine ⟨hinv', ?_, ?_⟩
  · show mapGet (mapSet st.envMap (norm key) value) (norm key) = value
    exact mapGet_mapSet_self _ _ _
  · intro k0
    have := hinv' (norm k0)
    rw [Getenv, this, mapGet_replay_normKey]

/-- Witness for C3: starting from the empty environment (where the invariant
holds trivially), setting `PATH=/bin` yields `Getenv PATH = /bin`. -/
theorem setenv_getenv_envInv_C3_witness :
    Getenv id (Setenv id ⟨[], []⟩ "PATH" "/bin") "PATH" = "/bin" :=
  (setenv_getenv_envInv_C3 id ⟨[], []⟩ "PATH" "/bin" (fun _ => rfl) (by decide)).2.1

/-- Counterexample for C3 as stated ("every Setenv appends to the list and
updates the map consistently"): `Setenv` with the key `A=B` (which
`Script.Setenv` accepts — only the setup-time `Env.Setenv` validates keys)
writes the map at key `A=B` while the appended entry `A=B=v` replays to key
`A`, so the map no longer equals the replay of the list. -/
theorem setenv_eqKey_C3_counterexample :
    ¬ EnvInv id (Setenv id ⟨[], []⟩ "A=B" "v") :=
  fun h => absurd (h "A=B") (by decide)

/-- Counterexample for C4 as stated: a transport error matching the
documented GOAWAY signature is *not* swallowed.  The first check
(script.go:993) is passed over, but the second `len(errs) != 0` check
(script.go:996-998) still returns a failure ("Internal Error", carrying the
body), so the request is surfaced as a command failure. -/
theorem http_goaway_C4_counterexample :
    (httpEnd [HTTP2_GOAWAY_CHECK] 200 "ok").err
      = some (.internalErr [HTTP2_GOAWAY_CHECK] "ok\n") := by
  decide

/-- C4 (amended: no transport error is swallowed): every issued HTTP request
with a non-empty transport-error list is reported as a failure that embeds
the response body; an error matching the GOAWAY signature produces the
"Internal Error" message, any other transport error the
"Internal Weirdr Error" message, and in both cases no success output is
produced. -/
theorem http_transport_error_C4 (e : String) (rest : List String)
    (status : Int) (body0 : String) :
    (httpEnd (e :: rest) status body0).err =
      some (if goContains e HTTP2_GOAWAY_CHECK
            then .internalErr (e :: rest) (body0 ++ "\n")
            else .weird (e :: rest) (body0 ++ "\n")) ∧
    (httpEnd (e :: rest) status body0).out = "" := by
  by_cases h : goContains e HTTP2_GOAWAY_CHECK = true <;> simp [httpEnd, h]

/-- C10: for every `http` invocation other than the `client` sub-verb, a
single newline is appended to the response body before classification: the
body embedded in any failure message is the raw response body followed by
exactly one newline, and on success the output is likewise the raw body
followed by exactly one newline. -/
theorem http_body_newline_C10 (a : String) (args errs : List String)
    (status : Int) (raw : String) (ha : a ≠ "client") :
    (∀ e, (http (a :: args) errs status raw).err = some e → e.body = raw ++ "\n") ∧
    ((http (a :: args) errs status raw).err = none →
      (http (a :: args) errs status raw).out = raw ++ "\n") := by
  have hne : http (a :: args) errs status raw = httpEnd errs status raw := by
    unfold http
    split
    · next heq => cases heq; exact absurd rfl ha
    · rfl
  rw [hne]
  rcases errs with _ | ⟨e, es⟩
  · by_cases h5 : status ≥ 500
    · simp [httpEnd, h5, HttpErr.body]
    · by_cases h4 : status ≥ 400 <;> simp [httpEnd, h5, h4, HttpErr.body]
  · by_cases hg : goContains e HTTP2_GOAWAY_CHECK = true <;>
      simp [httpEnd, hg, HttpErr.body]

/-- Witness for C10: a plain successful request (no transport error, status
200) returns the body plus one newline. -/
theorem http_body_newline_C10_witness :
    (http ["http://x"] [] 200 "hello").out = "hello\n" :=
  (http_body_newline_C10 "http://x" [] [] 200 "hello" (by decide)).2 (by decide)

/-- C5 (code bug, script.go:1163-1164): the `METHOD=<value>` key (and its
alias `M=<value>`) sets the request method to the uppercased *key* —
`"METHOD"` / `"M"` — discarding the value, while a bare verb token such as
`POST` correctly sets the method to that verb.  Evaluated at the failing
inputs. -/
theorem applyArg_method_C5_bug :
    applyArgToReq (fun _ => none) (fun _ => none) [gorequestNew] 0 "METHOD=POST"
      = .ok [{ gorequestNew with Method := "METHOD" }] 0 ∧
    applyArgToReq (fun _ => none) (fun _ => none) [gorequestNew] 0 "M=POST"
      = .ok [{ gorequestNew with Method := "M" }] 0 ∧
    applyArgToReq (fun _ => none) (fun _ => none) [gorequestNew] 0 "POST"
      = .ok [{ gorequestNew with Method := "POST" }] 0 := by
  refine ⟨by decide, by decide, by decide⟩

lemma heapSet_length (heap : List SuperAgent) (a : Nat) (f : SuperAgent → SuperAgent) :
    (heapSet heap a f).length = heap.length := by
  simp [heapSet]

lemma heapGet_heapSet_ne (heap : List SuperAgent) (a : Nat) (f : SuperAgent → SuperAgent)
    (j : Nat) (h : a ≠ j) :
    heapGet (heapSet heap a f) j = heapGet heap j := by
  unfold heapGet heapSet
  rw [List.getD_eq_getElem?_getD, List.getD_eq_getElem?_getD, List.getElem?_set_ne h]

lemma heapGet_append_left (heap : List SuperAgent) (x : SuperAgent) (addr : Nat)
    (h : addr < heap.length) :
    heapGet (heap ++ [x]) addr = heapGet heap addr := by
  unfold heapGet
  rw [List.getD_eq_getElem?_getD, List.getD_eq_getElem?_getD, List.getElem?_append_left h]

/-- Every successful `applyArgToReq` is an in-place mutation of the record
at the given address: the returned address is unchanged and the heap differs
only by a `heapSet` there. -/
lemma applyArgToReq_ok_shape (rf : String → Option String) (pd : String → Option Int)
    (heap : List SuperAgent) (a : Nat) (arg : String)
    (heap' : List SuperAgent) (a' : Nat) :
    applyArgToReq rf pd heap a arg = .ok heap' a' →
    a' = a ∧ ∃ f, heap' = heapSet heap a f := by
  intro h
  unfold applyArgToReq at h
  rcases hsp : splitN2 arg '=' with ⟨key, valOpt⟩
  rw [hsp] at h
  simp only [] at h
  cases hsw : applyArgSwitch rf pd arg key (valOpt.getD "") (goToUpper key) with
  | mutate f =>
    rw [hsw] at h
    injection h with h1 h2
    exact ⟨h2.symm, f, h1.symm⟩
  | err m => rw [hsw] at h; cases h
  | fatal m => rw [hsw] at h; cases h
  | panicked => rw [hsw] at h; cases h

/-- `applyArgsToReq` only ever mutates the record at the address it was
given: the result address is the same and every other address is untouched. -/
lemma applyArgsToReq_frame (rf : String → Option String) (pd : String → Option Int) :
    ∀ (args : List String) (heap : List SuperAgent) (a : Nat)
      (heap' : List SuperAgent) (a' : Nat),
    applyArgsToReq rf pd heap a args = .ok heap' a' →
    a' = a ∧ heap'.length = heap.length ∧
      ∀ j, j ≠ a → heapGet heap' j = heapGet heap j := by
  intro args
  induction args with
  | nil =>
    intro heap a heap' a' h
    injection h with h1 h2
    exact ⟨h2.symm, by rw [h1], fun j _ => by rw [h1]⟩
  | cons arg rest ih =>
    intro heap a heap' a' h
    unfold applyArgsToReq at h
    cases hstep : applyArgToReq rf pd heap a arg with
    | ok heap1 a1 =>
      rw [hstep] at h
      obtain ⟨ha1, f, hh1⟩ := applyArgToReq_ok_shape rf pd heap a arg heap1 a1 hstep
      rw [ha1] at h
      obtain ⟨ha', hlen, hfr⟩ := ih heap1 a heap' a' h
      refine ⟨ha', ?_, fun j hj => ?_⟩
      · rw [hlen, hh1, heapSet_length]
      · rw [hfr j hj, hh1, heapGet_heapSet_ne _ _ _ _ (Ne.symm hj)]
    | err m => rw [hstep] at h; cases h
    | fatal m => rw [hstep] at h; cases h
    | panicked => rw [hstep] at h; cases h

/-- C6: issuing a request through a registered client name clones the stored
template to a fresh address before applying the per-call override arguments,
so the stored template's record is unchanged by the issuance and the built
request lives at a different address.  (The registry itself is not touched
by `reqFromArgs` at all — only the `http client` sub-verb, `mod` in
particular, rebinds or mutates stored templates.) -/
theorem reqFromArgs_preserves_template_C6
    (readFile : String → Option String) (parseDuration : String → Option Int)
    (heap : List SuperAgent) (clients : List (String × Nat))
    (name : String) (addr : Nat) (args : List String)
    (heap' : List SuperAgent) (addr' : Nat)
    (hlook : clientsLookup clients name = some addr)
    (haddr : addr < heap.length)
    (hrun : reqFromArgs readFile parseDuration heap clients (name :: args) = .ok heap' addr') :
    heapGet heap' addr = heapGet heap addr ∧ addr' ≠ addr := by
  unfold reqFromArgs at hrun
  simp only [] at hrun
  rw [hlook] at hrun
  obtain ⟨ha', _, hfr⟩ := applyArgsToReq_frame readFile parseDuration args _ _ _ _ hrun
  have hne : addr ≠ heap.length := Nat.ne_of_lt haddr
  constructor
  · rw [hfr addr hne, heapGet_append_left _ _ _ haddr]
  · rw [ha']
    exact Ne.symm hne

/-- The template stored for the witness client. -/
def agentW : SuperAgent :=
  { gorequestNew with Method := "GET", Url := "http://t" }

/-- Witness for C6: issuing `http api URL=http://u` against the registry
`api ↦ agentW` leaves the stored template at address 0 unchanged; the
override lands on the clone at address 1. -/
theorem reqFromArgs_preserves_template_C6_witness :
    heapGet [agentW, { agentW with Url := "http://u" }] 0 = heapGet [agentW] 0 ∧
    (1 : Nat) ≠ 0 :=
  reqFromArgs_preserves_template_C6 (fun _ => none) (fun _ => none)
    [agentW] [("api", 0)] "api" 0 ["URL=http://u"]
    [agentW, { agentW with Url := "http://u" }] 1
    (by decide) (by decide) (by decide)

/-- What one update does to the archive: every matching entry's data is
replaced (quoted when needed), and `found` reports whether any matched. -/
lemma updateFiles_ok (nq : String → Bool) (q : String → Option String)
    (name content : String) (hqc : nq content = true → (q content).isSome) :
    ∀ files : List TxtarFile,
    updateFiles nq q name content files =
      .ok (files.map (fun f =>
             if f.name = name then { f with data := quoteEnc nq q content } else f),
           files.any (fun f => f.name = name)) := by
  intro files
  induction files with
  | nil => rfl
  | cons f fs ih =>
    unfold updateFiles
    by_cases hf : f.name = name
    · by_cases hnq : nq content = true
      · obtain ⟨d, hd⟩ := Option.isSome_iff_exists.mp (hqc hnq)
        simp [hf, hnq, hd, ih, quoteEnc]
      · simp [hf, hnq, ih, quoteEnc]
    · simp [hf, ih]

/-- Unfolding `updatedData` at a cons cell. -/
lemma updatedData_cons (nq : String → Bool) (q : String → Option String)
    (nm content : String) (us : List (String × String)) (f : TxtarFile) :
    updatedData nq q ((nm, content) :: us) f
      = if nm = f.name then { f with data := quoteEnc nq q content }
        else updatedData nq q us f := by
  unfold updatedData
  by_cases h : nm = f.name
  · simp [List.find?, h]
  · simp [List.find?, h]

lemma find?_none_of_not_mem_keys {us : List (String × String)} {nm : String}
    (h : nm ∉ us.map Prod.fst) : us.find? (fun u => u.1 = nm) = none := by
  apply List.find?_eq_none.mpr
  intro u hu
  simp only [decide_eq_true_eq]
  exact fun he => h (List.mem_map.mpr ⟨u, hu, he⟩)

/-- An entry whose name no update mentions is untouched. -/
lemma updatedData_of_not_mem (nq : String → Bool) (q : String → Option String)
    (g : TxtarFile) (us : List (String × String)) (h : g.name ∉ us.map Prod.fst) :
    updatedData nq q us g = g := by
  unfold updatedData
  rw [find?_none_of_not_mem_keys h]

/-- Coverage case of C7: when every recorded path matches some archive entry
(and quoting succeeds where needed, and the recorded paths are distinct, as
Go map keys are), the update pass succeeds and each entry carries the
(possibly quoted) new content of its update, other entries untouched. -/
lemma applyScriptUpdates_okRes (nq : String → Bool) (q : String → Option String) :
    ∀ (updates : List (String × String)) (files : List TxtarFile),
    (∀ u ∈ updates, nq u.2 = true → (q u.2).isSome) →
    (updates.map Prod.fst).Nodup →
    (∀ u ∈ updates, ∃ f ∈ files, f.name = u.1) →
    applyScriptUpdates nq q files updates
      = .okRes (files.map (updatedData nq q updates)) := by
  intro updates
  induction updates with
  | nil =>
    intro files _ _ _
    unfold applyScriptUpdates
    have hid : ∀ f ∈ files, updatedData nq q [] f = id f := fun f _ => rfl
    rw [List.map_congr_left hid, List.map_id]
  | cons u us ih =>
    intro files hq hnodup hcov
    obtain ⟨nm, content⟩ := u
    unfold applyScriptUpdates
    rw [updateFiles_ok nq q nm content (fun h => hq (nm, content) (by simp) h)]
    have hfound : files.any (fun f => f.name = nm) = true := by
      obtain ⟨f, hfmem, hfeq⟩ := hcov (nm, content) (by simp)
      exact List.any_eq_true.mpr ⟨f, hfmem, by simp [hfeq]⟩
    simp only [hfound, if_true]
    have hkeys : nm ∉ us.map Prod.fst := by
      have := hnodup
      simp only [List.map_cons] at this
      exact (List.nodup_cons.mp this).1
    have hnodup' : (us.map Prod.fst).Nodup := by
      have := hnodup
      simp only [List.map_cons] at this
      exact (List.nodup_cons.mp this).2
    have hcov' : ∀ v ∈ us,
        ∃ g ∈ files.map (fun f =>
          if f.name = nm then { f with data := quoteEnc nq q content } else f),
          g.name = v.1 := by
      intro v hv
      obtain ⟨f, hf, he⟩ := hcov v (by simp [hv])
      refine ⟨if f.name = nm then { f with data := quoteEnc nq q content } else f,
        List.mem_map_of_mem _ hf, ?_⟩
      by_cases h : f.name = nm
      · rw [if_pos h]; exact he
      · rw [if_neg h]; exact he
    rw [ih _ (fun v hv h => hq v (by simp [hv]) h) hnodup' hcov', List.map_map]
    congr 1
    apply List.map_congr_left
    intro f _
    simp only [Function.comp_apply]
    by_cases hf : f.name = nm
    · rw [if_pos hf, updatedData_cons, if_pos hf.symm]
      have hnotin : f.name ∉ us.map Prod.fst := by rw [hf]; exact hkeys
      exact updatedData_of_not_mem nq q _ us hnotin
    · rw [if_neg hf, updatedData_cons, if_neg (fun h => hf h.symm)]

/-- Panic case of C7: a recorded path matching no archive entry makes the
pass hit `panic("script update file not found")` — not a test failure. -/
lemma applyScriptUpdates_panics (nq : String → Bool) (q : String → Option String) :
    ∀ (updates : List (String × String)) (files : List TxtarFile),
    (∀ u ∈ updates, nq u.2 = true → (q u.2).isSome) →
    (∃ u ∈ updates, ∀ f ∈ files, f.name ≠ u.1) →
    applyScriptUpdates nq q files updates = .panicked := by
  intro updates
  induction updates with
  | nil =>
    intro files _ hmiss
    obtain ⟨u, hu, _⟩ := hmiss
    simp at hu
  | cons u us ih =>
    intro files hq hmiss
    obtain ⟨nm, content⟩ := u
    unfold applyScriptUpdates
    rw [updateFiles_ok nq q nm content (fun h => hq (nm, content) (by simp) h)]
    simp only []
    by_cases hfound : files.any (fun f => f.name = nm) = true
    · rw [if_pos hfound]
      obtain ⟨v, hv, hnone⟩ := hmiss
      rcases List.mem_cons.mp hv with heq | hvus
      · obtain ⟨f, hf, hfeq⟩ := List.any_eq_true.mp hfound
        have : f.name = nm := by simpa using hfeq
        exact absurd (heq ▸ this : f.name = v.1) (hnone f hf)
      · refine ih _ (fun w hw h => hq w (by simp [hw]) h) ⟨v, hvus, ?_⟩
        intro g hg
        obtain ⟨f, hf, rfl⟩ := List.mem_map.mp hg
        have : (if f.name = nm then { f with data := quoteEnc nq q content } else f).name
            = f.name := by
          by_cases h : f.name = nm <;> simp [h]
        rw [this]
        exact hnone f hf
    · rw [if_neg hfound]

/-- C7: when golden-file updates are applied at run end, every recorded
(archive-path, new-content) pair whose path matches archive entries has
those entries' bytes replaced by the new content — quoted when the raw
txtar text requires it — and a recorded path with no matching entry is an
unrecoverable panic that halts the run, not a test failure.
`needsQuote`/`quote` model `txtar.NeedsQuote`/`txtar.Quote` (not under
src/); the recorded updates are the entries of a Go map, so their paths are
distinct. -/
theorem applyScriptUpdates_C7 (nq : String → Bool) (q : String → Option String)
    (files : List TxtarFile) (updates : List (String × String))
    (hq : ∀ u ∈ updates, nq u.2 = true → (q u.2).isSome)
    (hnodup : (updates.map Prod.fst).Nodup) :
    ((∀ u ∈ updates, ∃ f ∈ files, f.name = u.1) →
      applyScriptUpdates nq q files updates
        = .okRes (files.map (updatedData nq q updates))) ∧
    ((∃ u ∈ updates, ∀ f ∈ files, f.name ≠ u.1) →
      applyScriptUpdates nq q files updates = .panicked) :=
  ⟨fun hcov => applyScriptUpdates_okRes nq q updates files hq hnodup hcov,
   fun hmiss => applyScriptUpdates_panics nq q updates files hq hmiss⟩

/-- `txtar.NeedsQuote` stand-in for the witness: quoting is needed when the
content could be mistaken for a file marker. -/
def nqW : String → Bool := fun s => goHasPrefix s "-- "

/-- `txtar.Quote` stand-in for the witness. -/
def quoteW : String → Option String := fun s => some ("> " ++ s)

/-- Witness for C7: updating `golden.txt` rewrites exactly that entry's
bytes and leaves the other entry alone. -/
theorem applyScriptUpdates_C7_witness :
    applyScriptUpdates nqW quoteW
      [⟨"golden.txt", "old"⟩, ⟨"other.txt", "keep"⟩] [("golden.txt", "new")]
      = .okRes [⟨"golden.txt", "new"⟩, ⟨"other.txt", "keep"⟩] := by
  have h := (applyScriptUpdates_C7 nqW quoteW
      [⟨"golden.txt", "old"⟩, ⟨"other.txt", "keep"⟩] [("golden.txt", "new")]
      (by decide) (by decide)).1 (by decide)
  exact h.trans (by decide)

lemma interruptAll_eq_map (bs : List BackgroundCmd) :
    interruptAll bs = bs.map .interrupt := by
  induction bs with
  | nil => rfl
  | cons b bs ih => simp [interruptAll, ih]

lemma drainAll_eq_map (bs : List BackgroundCmd) :
    drainAll bs = bs.map .drain := by
  induction bs with
  | nil => rfl
  | cons b bs ih => simp [drainAll, ih]

lemma waitDrain_eq_any (bs : List BackgroundCmd) :
    waitDrain bs = bs.any bgMismatch := by
  induction bs with
  | nil => rfl
  | cons b bs ih => simp [waitDrain, ih]

/-- C8: after an explicit `wait` and after the run teardown the active
background list is empty; the teardown first interrupts every outstanding
process and then drains (awaits) every one, and the failures of processes
drained at teardown do not by themselves fail the test (the verdict is
unchanged) — only an explicit wait surfaces an expectation mismatch as a
failure. -/
theorem background_drained_C8 (s : BgState) :
    (cmdWait s).background = [] ∧
    (runTeardown s).1.background = [] ∧
    (runTeardown s).1.failed = s.failed ∧
    (runTeardown s).2 = s.background.map .interrupt ++ s.background.map .drain ∧
    (cmdWait s).failed = (s.failed || s.background.any bgMismatch) := by
  refine ⟨rfl, rfl, rfl, ?_, ?_⟩
  · show interruptAll s.background ++ drainAll s.background = _
    rw [interruptAll_eq_map, drainAll_eq_map]
  · show (s.failed || waitDrain s.background) = _
    rw [waitDrain_eq_any]

/-- Witness for C9: the spec's Scenario E line `echo 'unterminated` aborts
fatally at line 1 with nothing executed, the following line included. -/
theorem runLines_untermQuote_C9_witness :
    runLines cfgW execW ["echo 'unterminated", "next"] 0 () =
    (.fatal 1 "unterminated quoted argument", []) := by
  have h := runLines_untermQuote_C9 cfgW execW "echo " "unterminated" ["next"] 0 ()
    (by decide) (by decide) (by decide) (by decide)
  have e1 : ("echo " ++ "'" ++ "unterminated") = "echo 'unterminated" := by decide
  rw [e1] at h
  exact h

end HofScript
